import Mathlib

/-!
Verification of the MNMST utility core (`src/utils.py`) against its
natural-language specification.

The Python source manipulates scipy CSR (compressed sparse row) triples
`(data, indices, indptr)` and dense numpy matrices.  We embed those
operations shallowly:

* machine floats are modelled by exact rationals (`ℚ`) where the claims
  concern exact values, and by an explicit IEEE-style carrier `FloatM`
  (finite / infinity / NaN) where a claim is about Inf/NaN propagation;
* numpy arrays become `List`s and a CSR matrix becomes the `Csr` structure;
* in-place mutation becomes explicit value passing; for the claim about
  aliasing (`zscore` leaving its argument intact) a small store of
  buffers makes every write visible, and for `weighted_concatenate` the
  post-call state of the two caller-owned buffers is returned alongside
  the result;
* a failing Python `assert` or numpy `ValueError` becomes `Except.error`;
  for the claims about validation order, `generate_spatial_distance_graph`
  additionally returns the list of actions it performed;
* `np.sqrt` (always applied to values that are nonnegative in exact
  arithmetic here) is an abstract parameter `s : ℚ → ℚ`; theorems assume
  only the properties of the true square root that they need.
-/

namespace MNMST

/-- A compressed-sparse-row matrix: the three parallel arrays of a
`scipy.sparse.csr_matrix`.  `α` is the scalar carrier (`ℚ` for exact
reasoning, `FloatM` when IEEE special values matter). -/
structure Csr (α : Type) where
  data : List α
  indices : List ℕ
  indptr : List ℕ
deriving DecidableEq

/-- The slice `l[a:b]` of a numpy 1-D array (clamping, like Python slices). -/
def listSlice {α : Type} (l : List α) (a b : ℕ) : List α :=
  (l.drop a).take (b - a)

/-- Embeds `np.ndarray.sum()`: sum of a list of scalars (0 for the empty slice). -/
def lsum {α : Type} [Add α] [Zero α] (l : List α) : α :=
  l.foldr (fun a b => a + b) 0

/- ----------------------------------------------------------------
CSR Filter: `remove_greater_than` (src/utils.py lines 24-51)
---------------------------------------------------------------- -/

/-- Positions (0-based, starting the count at `n`) of the entries of a data
array that are strictly greater than `t`.  `greaterIndices` below is
`np.where(graph.data > threshold)[0]` from `remove_greater_than`. -/
def greaterIndicesFrom (t : ℚ) : ℕ → List ℚ → List ℕ
  | _, [] => []
  | n, v :: vs =>
    if t < v then n :: greaterIndicesFrom t (n + 1) vs
    else greaterIndicesFrom t (n + 1) vs

/-- Embeds `np.where(graph.data > threshold)[0]`. -/
def greaterIndices (data : List ℚ) (t : ℚ) : List ℕ :=
  greaterIndicesFrom t 0 data

/-- One entry of `np.cumsum(np.histogram(gi, bins=indptr)[0])`: the number of
positions in `gi` lying between the first bin edge `lo` and the edge `e`.
`np.histogram` assigns each value to the unique half-open bin containing it
(values outside `[first edge, last edge]` are dropped), so the cumulative
count through the bin whose right edge is `e` is the count of values in
`[lo, e)`; the very last bin of `np.histogram` is closed on the right,
hence the `closed` flag. -/
def cumCount (gi : List ℕ) (lo e : ℕ) (closed : Bool) : ℕ :=
  (gi.filter (fun p =>
    decide (lo ≤ p) && (if closed then decide (p ≤ e) else decide (p < e)))).length

/-- Embeds `graph.indptr[1:] -= cum_hist`: every row boundary after the first is
lowered by the cumulative histogram count through its bin; the final
boundary corresponds to the right-closed last bin of `np.histogram`. -/
def newIndptrGo (gi : List ℕ) (lo : ℕ) : List ℕ → List ℕ
  | [] => []
  | [e] => [e - cumCount gi lo e true]
  | e :: e' :: rest => (e - cumCount gi lo e false) :: newIndptrGo gi lo (e' :: rest)

/-- The updated `indptr` of `remove_greater_than`: `indptr[0]` is untouched
and every later boundary is lowered by the cumulative count of removed
positions binned into the original row buckets. -/
def newIndptr (gi : List ℕ) (indptr : List ℕ) : List ℕ :=
  match indptr with
  | [] => []
  | h :: rest => h :: newIndptrGo gi h rest

/-- Embeds `remove_greater_than(graph, threshold)` (src/utils.py lines 24-51):
`np.delete` of the positions `np.where(data > threshold)[0]` from `data`
and from `indices` (deleting exactly the positions whose data value is
strictly greater than the threshold), and the histogram update of
`indptr`.  The `copy` flag only chooses between mutating the caller's
arrays and fresh ones; the produced triple is the same, which is what the
value-level embedding returns.  `verbose` only prints. -/
def remove_greater_than (g : Csr ℚ) (t : ℚ) : Csr ℚ :=
  { data := g.data.filter (fun v => !decide (t < v)),
    indices := ((g.data.zip g.indices).filter (fun p => !decide (t < p.1))).map Prod.snd,
    indptr := newIndptr (greaterIndices g.data t) g.indptr }

/-- Number of entries of `data[0:b]` with value less than or equal to `t`;
this is the value each `indptr` boundary `b` is rewritten to by
`remove_greater_than`. -/
def countLe (data : List ℚ) (t : ℚ) (b : ℕ) : ℕ :=
  ((data.take b).filter (fun v => !decide (t < v))).length

/-- The CSR invariant of the specification (§3): `indptr` is non-decreasing,
starts at 0, ends at the length of `data`, and `data`/`indices` are
parallel arrays. -/
abbrev CsrInv (g : Csr ℚ) : Prop :=
  g.indptr.Chain' (fun a b => a ≤ b) ∧ g.indptr.headD 0 = 0 ∧
  g.indptr.getLastD 0 = g.data.length ∧ g.indices.length = g.data.length ∧
  g.indptr ≠ []

/- ----------------------------------------------------------------
Row Normalizer: `row_normalize` (src/utils.py lines 55-77)
---------------------------------------------------------------- -/

/-- One iteration of the loop in `row_normalize`: read `row_sum =
data[start_ptr:end_ptr].sum()` and, if it is nonzero, divide the slice by
it in place.  Generic in the scalar carrier so the same embedding serves
exact (`ℚ`) and IEEE-style (`FloatM`) reasoning. -/
def normalizeSlice {α : Type} [Add α] [Zero α] [Div α] [DecidableEq α]
    (d : List α) (s e : ℕ) : List α :=
  if lsum ((d.drop s).take (e - s)) = 0 then d
  else
    d.take s
      ++ ((d.drop s).take (e - s)).map (fun v => v / lsum ((d.drop s).take (e - s)))
      ++ d.drop e

/-- The loop `for start_ptr, end_ptr in zip(indptr[:-1], indptr[1:])` of
`row_normalize`, threading the mutated data array. -/
def rowNormAux {α : Type} [Add α] [Zero α] [Div α] [DecidableEq α]
    (d : List α) (s : ℕ) : List ℕ → List α
  | [] => d
  | e :: rest => rowNormAux (normalizeSlice d s e) e rest

/-- The data array after `row_normalize` has processed every consecutive
`indptr` pair. -/
def rowNormData {α : Type} [Add α] [Zero α] [Div α] [DecidableEq α]
    (d : List α) (indptr : List ℕ) : List α :=
  match indptr with
  | [] => d
  | s :: rest => rowNormAux d s rest

/-- Embeds `row_normalize(graph)` (src/utils.py lines 55-77).  Only `data` is
written; `indices` and `indptr` are untouched.  As with
`remove_greater_than`, the `copy` flag selects aliasing only and `verbose`
only prints. -/
def row_normalize {α : Type} [Add α] [Zero α] [Div α] [DecidableEq α]
    (g : Csr α) : Csr α :=
  { g with data := rowNormData g.data g.indptr }

/-- The mathematical effect of `row_normalize` on a single row slice. -/
def normVal {α : Type} [Add α] [Zero α] [Div α] [DecidableEq α]
    (row : List α) : List α :=
  if lsum row = 0 then row else row.map (fun v => v / lsum row)

/- ----------------------------------------------------------------
Weight Transform: `generate_spatial_weights_fixed_nbrs`
(src/utils.py lines 112-124)
---------------------------------------------------------------- -/

/-- Embeds `generate_spatial_weights_fixed_nbrs` from the distance graph onward
(src/utils.py lines 112-124): the function obtains `distance_graph` from
`generate_spatial_distance_graph` (a sklearn k-NN query, external to this
core), copies it (`graph_out = distance_graph.copy()`), replaces the
copied data by its elementwise reciprocal (`graph_out.data = 1 /
graph_out.data`), row-normalizes the copy and returns the pair
`(row_normalize(graph_out), distance_graph)`.  Because of the copy, the
returned distance graph is the untouched input. -/
def generate_spatial_weights_fixed_nbrs {α : Type}
    [Add α] [Zero α] [Div α] [One α] [DecidableEq α]
    (distance_graph : Csr α) : Csr α × Csr α :=
  let graph_out : Csr α :=
    { distance_graph with data := distance_graph.data.map (fun v => 1 / v) }
  (row_normalize graph_out, distance_graph)

/-- Modelled from the spec: the k-nearest-neighbour distance graph that the
(external, sklearn) `kneighbors_graph` query returns for the §8 concrete
scenario — coordinates `[[0],[1],[2],[3]]` with `num_neighbours = 2` —
"distance graph has, per row, the two nearest points' distances (e.g.,
row 0 neighbors at distance 1 and 2)"; the query point itself is excluded. -/
def scenarioDistanceGraph : Csr ℚ :=
  { data := [1, 2, 1, 1, 1, 1, 1, 2],
    indices := [1, 2, 0, 2, 1, 3, 2, 1],
    indptr := [0, 2, 4, 6, 8] }

/- ----------------------------------------------------------------
An IEEE-style float carrier for the Inf/NaN propagation claim
---------------------------------------------------------------- -/

/-- Model of the nonnegative IEEE doubles arising in distance/weight graphs:
an exact finite value, positive infinity, or NaN.  (The sign of infinity is
immaterial to the claims: all finite values involved are nonnegative
distances.) -/
inductive FloatM where
  | fin (q : ℚ)
  | inf
  | nan
deriving DecidableEq

/-- IEEE addition on the modelled values: NaN propagates, infinity absorbs
finite values. -/
def addF : FloatM → FloatM → FloatM
  | .nan, _ => .nan
  | .fin _, .nan => .nan
  | .inf, .nan => .nan
  | .inf, _ => .inf
  | .fin _, .inf => .inf
  | .fin a, .fin b => .fin (a + b)

/-- IEEE division on the modelled values: NaN propagates, `inf/inf` and
`0/0` are NaN, `x/0` is infinite for `x ≠ 0`, and finite/`inf` is 0. -/
def divF : FloatM → FloatM → FloatM
  | .nan, _ => .nan
  | .fin _, .nan => .nan
  | .inf, .nan => .nan
  | .inf, .inf => .nan
  | .inf, .fin _ => .inf
  | .fin _, .inf => .fin 0
  | .fin a, .fin b =>
    if b = 0 then (if a = 0 then .nan else .inf) else .fin (a / b)

instance : Add FloatM := ⟨addF⟩
instance : Zero FloatM := ⟨.fin 0⟩
instance : Div FloatM := ⟨divF⟩
instance : One FloatM := ⟨.fin 1⟩

/- ----------------------------------------------------------------
Feature Fusion: `weighted_concatenate` (src/utils.py lines 166-189)
---------------------------------------------------------------- -/

/-- Elementwise in-place scaling `m *= c` of a dense matrix (list of rows). -/
def scaleMatrix (c : ℚ) (m : List (List ℚ)) : List (List ℚ) :=
  m.map (fun row => row.map (fun v => v * c))

/-- Embeds `weighted_concatenate(cell_genes, neighbours, neighbourhood_contribution)`
(src/utils.py lines 166-189) on dense inputs, as a value: scale
`cell_genes` by `s (1 - λ)` and `neighbours` by `s λ` (where `s` stands
for `np.sqrt`), then concatenate row-wise (`np.concatenate(..., axis=1)`). -/
def weighted_concatenate (s : ℚ → ℚ) (cell_genes neighbours : List (List ℚ))
    (lam : ℚ) : List (List ℚ) :=
  (scaleMatrix (s (1 - lam)) cell_genes).zipWith (fun a b => a ++ b)
    (scaleMatrix (s lam) neighbours)

/-- Embeds `weighted_concatenate` with its effects made explicit: the first
component is the pair of caller-owned buffers as they stand after the call
(the function scales both in place before concatenating), the second is
the normal result or the `ValueError` that `np.concatenate` raises when
the row counts differ.  There is no validation of `λ` anywhere in the
source. -/
def weighted_concatenate_run (s : ℚ → ℚ) (cell_genes neighbours : List (List ℚ))
    (lam : ℚ) :
    (List (List ℚ) × List (List ℚ)) × Except String (List (List ℚ)) :=
  let cg := scaleMatrix (s (1 - lam)) cell_genes
  let nb := scaleMatrix (s lam) neighbours
  if cg.length = nb.length then
    ((cg, nb), .ok (cg.zipWith (fun a b => a ++ b) nb))
  else
    ((cg, nb), .error ("ValueError: row counts differ"))

/-- A dense matrix is rectangular with `g` columns. -/
abbrev rectangular (m : List (List ℚ)) (g : ℕ) : Prop :=
  ∀ row ∈ m, row.length = g

/-- Map with the element's position (the column index of a numpy
broadcast), counting from `j`. -/
def mapWithIndex {α β : Type} (f : ℕ → α → β) : ℕ → List α → List β
  | _, [] => []
  | j, x :: xs => f j x :: mapWithIndex f (j + 1) xs

/- ----------------------------------------------------------------
Z-Scorer: `zscore` (src/utils.py lines 192-219), dense input
---------------------------------------------------------------- -/

/-- Embeds `np.mean` of a 1-D array (exact arithmetic; numpy would emit NaN for an
empty mean, a case none of the statements below touch). -/
def meanQ (l : List ℚ) : ℚ := lsum l / (l.length : ℚ)

/-- Float division, keeping the IEEE non-finite outcome visible: division by
zero gives `none` (a NaN/Inf), otherwise the exact quotient. -/
def safeDiv (a b : ℚ) : Option ℚ := if b = 0 then none else some (a / b)

/-- Embeds `np.nan_to_num` as it acts on the values `zscore` produces: in exact
arithmetic a zero divisor only arises from a zero variance, in which case
the numerator `x - mean` is 0 as well, so the non-finite value is the NaN
`0/0` and is replaced by 0. -/
def nanToNum (o : Option ℚ) : ℚ := o.getD 0

/-- Column `j` of a dense matrix given as a list of rows. -/
def colAt (m : List (List ℚ)) (j : ℕ) : List ℚ :=
  m.map (fun row => row.getD j 0)

/-- Embeds `matrix.mean(axis=0)` at column `j`. -/
def colMean (m : List (List ℚ)) (j : ℕ) : ℚ := meanQ (colAt m j)

/-- Embeds `np.square(matrix).mean(axis=0) - np.square(E_x)` at column `j`. -/
def colVar (m : List (List ℚ)) (j : ℕ) : ℚ :=
  meanQ ((colAt m j).map (fun v => v * v)) - colMean m j * colMean m j

/-- The dense `axis=0` branch of `zscore`: per column, subtract the mean and
divide by `s` (= `np.sqrt`) of the variance; `np.nan_to_num` maps the
zero-variance NaNs to 0. -/
def zscoreCols (s : ℚ → ℚ) (m : List (List ℚ)) : List (List ℚ) :=
  m.map (fun row =>
    mapWithIndex (fun j x => nanToNum (safeDiv (x - colMean m j) (s (colVar m j)))) 0 row)

/-- Embeds `matrix.mean(axis=1)` at row `j`. -/
def rowMeanAt (m : List (List ℚ)) (j : ℕ) : ℚ := meanQ (m.getD j [])

/-- Row variance at row `j`, via the same moment formula the source uses. -/
def rowVarAt (m : List (List ℚ)) (j : ℕ) : ℚ :=
  meanQ ((m.getD j []).map (fun v => v * v)) - rowMeanAt m j * rowMeanAt m j

/-- The dense `axis=1` branch of `zscore` for an N×N input: `E_x =
matrix.mean(axis=1)` has shape `(N,)`, so numpy broadcasting aligns it
with the COLUMN axis — entry `(i, j)` has the mean and variance of row
`j` (not row `i`) subtracted and divided. -/
def zscoreAxis1Square (s : ℚ → ℚ) (m : List (List ℚ)) : List (List ℚ) :=
  m.map (fun row =>
    mapWithIndex (fun j x => nanToNum (safeDiv (x - rowMeanAt m j) (s (rowVarAt m j)))) 0 row)

/-- The dense `axis=1` branch for a single-row input: `(1, G)` against the
broadcast `(1, 1)` mean standardizes the row correctly. -/
def zscoreSingleRow (s : ℚ → ℚ) (row : List ℚ) : List (List ℚ) :=
  [row.map (fun x =>
    nanToNum (safeDiv (x - meanQ row)
      (s (meanQ (row.map (fun v => v * v)) - meanQ row * meanQ row))))]

/-- The dense `axis=1` branch for a single-column input with N > 1 rows:
`(N, 1)` against the broadcast `(1, N)` mean explodes to an N×N result;
every per-row variance of a one-element row is 0, and entry `(i, j)` is
`(m[i][0] - m[j][0]) / sqrt 0`. -/
def zscoreSingleCol (s : ℚ → ℚ) (m : List (List ℚ)) : List (List ℚ) :=
  (List.range m.length).map (fun i =>
    (List.range m.length).map (fun j =>
      nanToNum (safeDiv ((m.getD i []).getD 0 0 - rowMeanAt m j) (s (rowVarAt m j)))))

/-- Embeds `zscore(matrix, axis)` (src/utils.py lines 192-219) on a rectangular
dense input.  `axis=0` always succeeds.  For `axis=1` the mean vector has
shape `(N,)` and `matrix - E_x` must broadcast `(N, G)` against `(N,)`:
numpy aligns trailing dimensions, so the subtraction raises `ValueError`
(modelled as `none`) unless `G = N`, `N = 1`, or `G = 1`; when it does
broadcast, the mean is aligned with the wrong axis except in the
single-row case.  Any other axis is a numpy `AxisError` (`none`). -/
def zscore (s : ℚ → ℚ) (m : List (List ℚ)) (axis : ℕ) :
    Option (List (List ℚ)) :=
  if axis = 0 then some (zscoreCols s m)
  else if axis = 1 then
    if (m.headD []).length = m.length then some (zscoreAxis1Square s m)
    else if m.length = 1 then some (zscoreSingleRow s (m.headD []))
    else if (m.headD []).length = 1 then some (zscoreSingleCol s m)
    else none
  else none

/- ----------------------------------------------------------------
Neighbor Graph Builder: `generate_spatial_distance_graph`
(src/utils.py lines 80-108), validation and execution order
---------------------------------------------------------------- -/

/-- The observable actions of `generate_spatial_distance_graph`, in the
order the source performs them.  `fitIndex` is
`NearestNeighbors(algorithm='ball_tree').fit(locations)`; `radiusGraph`,
`kneighborsGraph` and `removeGreater` are the graph computations;
`checkNumNeighbours` and `checkRadius` are the two `assert isinstance`
validations. -/
inductive GsdgStep where
  | fitIndex
  | radiusGraph
  | checkNumNeighbours
  | kneighborsGraph
  | checkRadius
  | removeGreater
deriving DecidableEq

/-- A dynamically-typed Python argument value, as far as the `isinstance`
checks of the source can distinguish them. -/
inductive PyVal where
  | int (n : ℤ)
  | bool (b : Bool)
  | float (q : ℚ)
  | str (s : String)
deriving DecidableEq

/-- Embeds `isinstance(v, int)`.  A Python `bool` is a subclass of `int` and
passes this check. -/
def isInstanceInt : PyVal → Bool
  | .int _ => true
  | .bool _ => true
  | _ => false

/-- Embeds `isinstance(v, (float, int))`. -/
def isInstanceFloatInt : PyVal → Bool
  | .int _ => true
  | .bool _ => true
  | .float _ => true
  | _ => false

/-- Embeds `generate_spatial_distance_graph(locations, nbr_object, num_neighbours,
radius)` (src/utils.py lines 80-108), abstracted to the actions it
performs and its error outcome.  The source fits the spatial index first
(unless `nbr_object` is supplied), only then reaches the `assert
isinstance(num_neighbours, int)`, computes the k-NN graph, and only after
that reaches the `assert isinstance(radius, (float, int))` guarding the
`remove_greater_than` filtering step. -/
def generate_spatial_distance_graph (nbr_object : Bool)
    (num_neighbours radius : Option PyVal) :
    List GsdgStep × Except String Unit :=
  let pre := if nbr_object then ([] : List GsdgStep) else [GsdgStep.fitIndex]
  match num_neighbours with
  | none => (pre ++ [GsdgStep.radiusGraph], .ok ())
  | some nn =>
    if isInstanceInt nn then
      match radius with
      | none => (pre ++ [GsdgStep.checkNumNeighbours, GsdgStep.kneighborsGraph], .ok ())
      | some r =>
        if isInstanceFloatInt r then
          (pre ++ [GsdgStep.checkNumNeighbours, GsdgStep.kneighborsGraph,
                   GsdgStep.checkRadius, GsdgStep.removeGreater], .ok ())
        else
          (pre ++ [GsdgStep.checkNumNeighbours, GsdgStep.kneighborsGraph,
                   GsdgStep.checkRadius],
           .error ("AssertionError: radius is not an integer or float"))
    else
      (pre ++ [GsdgStep.checkNumNeighbours],
       .error ("AssertionError: number of neighbours is not an integer"))

/- ----------------------------------------------------------------
A store of numpy buffers, for the aliasing claim about `zscore`
---------------------------------------------------------------- -/

/-- A heap of numpy array buffers; a matrix object holds an index into it.
Dense matrices are stored row-major flattened. -/
structure Store where
  bufs : List (List ℚ)
deriving DecidableEq

/-- Read the buffer behind reference `i`. -/
def readBuf (st : Store) (i : ℕ) : List ℚ := st.bufs.getD i []

/-- Allocate a fresh buffer, returning its reference. -/
def allocBuf (st : Store) (b : List ℚ) : Store × ℕ :=
  ({ bufs := st.bufs ++ [b] }, st.bufs.length)

/-- Overwrite the buffer behind reference `i` (an in-place numpy update). -/
def writeBuf (st : Store) (i : ℕ) (b : List ℚ) : Store :=
  { bufs := st.bufs.set i b }

/-- Reads `A[i, j]` of a CSR matrix: the sum of the stored entries of row `i` with
column index `j` (scipy sums duplicates when interacting with dense
arrays). -/
def csrEntry (data : List ℚ) (indices indptr : List ℕ) (i j : ℕ) : ℚ :=
  lsum ((((data.zip indices).drop (indptr.getD i 0)).take
      (indptr.getD (i + 1) 0 - indptr.getD i 0)).filter
    (fun pr => pr.2 == j) |>.map Prod.fst)

/-- Column sum of a CSR matrix, including implicit zeros. -/
def csrColSum (data : List ℚ) (indices : List ℕ) (j : ℕ) : ℚ :=
  lsum (((data.zip indices).filter (fun pr => pr.2 == j)).map Prod.fst)

/-- The value matrix computed by the sparse `axis=0` branch of `zscore`:
`E_x` and `E_x2` are per-column means over all N×G positions (squaring a
sparse matrix keeps implicit zeros at zero, so the means of the squared
copy are the true second moments), and the result is the dense
standardized matrix with `np.nan_to_num` applied. -/
def zscoreSparseValues (s : ℚ → ℚ) (data sqData : List ℚ)
    (indices indptr : List ℕ) (N G : ℕ) : List (List ℚ) :=
  (List.range N).map (fun i =>
    (List.range G).map (fun j =>
      nanToNum (safeDiv
        (csrEntry data indices indptr i j - csrColSum data indices j / (N : ℚ))
        (s (csrColSum sqData indices j / (N : ℚ) -
            csrColSum data indices j / (N : ℚ) * (csrColSum data indices j / (N : ℚ)))))))

/-- The sparse branch of `zscore` (src/utils.py lines 203-206) as a store
program.  `mIdx` is the caller's `matrix.data` buffer; `indices`, `indptr`
and the shape are the structural parts the branch never writes.  The
branch allocates `squared = matrix.copy()`, squares THAT buffer in place
(`squared.data **= 2`), computes the moments by reading, and allocates the
dense standardized result.  The returned reference points at the fresh
result buffer. -/
def zscoreSparseProg (s : ℚ → ℚ) (st : Store) (mIdx : ℕ)
    (indices indptr : List ℕ) (N G : ℕ) : Store × ℕ :=
  let a1 := allocBuf st (readBuf st mIdx)
  let st2 := writeBuf a1.1 a1.2 ((readBuf a1.1 a1.2).map (fun v => v * v))
  allocBuf st2
    (zscoreSparseValues s (readBuf st2 mIdx) (readBuf st2 a1.2) indices indptr N G).flatten

/-- Split a row-major flattened buffer back into `n` rows of width `g`. -/
def unflatten (g : ℕ) : ℕ → List ℚ → List (List ℚ)
  | 0, _ => []
  | n + 1, l => l.take g :: unflatten g n (l.drop g)

/-- The dense branch of `zscore` as a store program: `np.square(matrix)`,
the means, the subtraction and the division all allocate fresh arrays and
only read the input, so the single store effect is the allocation of the
result. -/
def zscoreDenseProg (s : ℚ → ℚ) (st : Store) (mIdx : ℕ) (N G : ℕ) :
    Store × ℕ :=
  allocBuf st ((zscoreCols s (unflatten G N (readBuf st mIdx))).flatten)

/- ================================================================
Helper lemmas
================================================================ -/

/-- Splitting a list by a predicate splits its length. -/
lemma length_filter_split (l : List ℚ) (t : ℚ) :
    (l.filter (fun v => !decide (t < v))).length
      + (l.filter (fun v => decide (t < v))).length = l.length := by
  induction l with
  | nil => simp
  | cons v vs ih =>
    by_cases h : t < v <;> simp [List.filter_cons, h] <;> omega

/-- Rows of a rectangular pair zipped with `++` have the summed width. -/
lemma zipWith_append_length {g1 g2 : ℕ} :
    ∀ (A B : List (List ℚ)), (∀ r ∈ A, r.length = g1) → (∀ r ∈ B, r.length = g2) →
      ∀ row ∈ A.zipWith (fun a b => a ++ b) B, row.length = g1 + g2 := by
  intro A
  induction A with
  | nil => simp
  | cons a as ih =>
    intro B hA hB row hrow
    cases B with
    | nil => simp at hrow
    | cons b bs =>
      rw [List.zipWith_cons_cons] at hrow
      rcases List.mem_cons.mp hrow with h | h
      · subst h
        rw [List.length_append, hA a (List.mem_cons_self a as),
          hB b (List.mem_cons_self b bs)]
      · exact ih bs (fun r hr => hA r (List.mem_cons_of_mem _ hr))
          (fun r hr => hB r (List.mem_cons_of_mem _ hr)) row h

section RowNormalize

variable {α : Type} [Add α] [Zero α] [Div α] [DecidableEq α]

lemma lsum_nil : lsum ([] : List α) = 0 := rfl

lemma lsum_cons (a : α) (l : List α) : lsum (a :: l) = a + lsum l := rfl

/-- A slice with a nonzero sum is nonempty, so its start is a real position. -/
lemma slice_sum_ne_zero_facts {d : List α} {s e : ℕ}
    (h : lsum ((d.drop s).take (e - s)) ≠ 0) : s < d.length ∧ s < e := by
  have hrow : ¬ (d.drop s).take (e - s) = [] := by
    intro hnil
    rw [hnil] at h
    exact h rfl
  rw [List.take_eq_nil_iff, not_or] at hrow
  obtain ⟨h1, h2⟩ := hrow
  rw [List.drop_eq_nil_iff, not_le] at h2
  exact ⟨h2, by omega⟩

lemma normalizeSlice_of_sum_eq {d : List α} {s e : ℕ}
    (h : lsum ((d.drop s).take (e - s)) = 0) : normalizeSlice d s e = d :=
  if_pos h

lemma normalizeSlice_of_sum_ne {d : List α} {s e : ℕ}
    (h : lsum ((d.drop s).take (e - s)) ≠ 0) :
    normalizeSlice d s e
      = d.take s ++ ((d.drop s).take (e - s)).map
          (fun v => v / lsum ((d.drop s).take (e - s))) ++ d.drop e :=
  if_neg h

lemma normalizeSlice_length (d : List α) (s e : ℕ) :
    (normalizeSlice d s e).length = d.length := by
  by_cases h : lsum ((d.drop s).take (e - s)) = 0
  · rw [normalizeSlice_of_sum_eq h]
  · obtain ⟨hs, hse⟩ := slice_sum_ne_zero_facts h
    rw [normalizeSlice_of_sum_ne h]
    simp only [List.length_append, List.length_map, List.length_take, List.length_drop]
    rcases le_or_lt e d.length with he | he
    · rw [Nat.min_eq_left (by omega), Nat.min_eq_left (by omega)]
      omega
    · rw [Nat.min_eq_left (by omega), Nat.min_eq_right (by omega)]
      omega

lemma normalizeSlice_take (d : List α) (s e : ℕ) :
    (normalizeSlice d s e).take s = d.take s := by
  by_cases h : lsum ((d.drop s).take (e - s)) = 0
  · rw [normalizeSlice_of_sum_eq h]
  · obtain ⟨hs, hse⟩ := slice_sum_ne_zero_facts h
    rw [normalizeSlice_of_sum_ne h, List.append_assoc,
      List.take_append_eq_append_take, List.take_take,
      Nat.min_self, List.length_take, Nat.min_eq_left (le_of_lt hs),
      Nat.sub_self, List.take_zero, List.append_nil]

lemma normalizeSlice_drop (d : List α) {s e : ℕ} (hse : s ≤ e) :
    (normalizeSlice d s e).drop e = d.drop e := by
  by_cases h : lsum ((d.drop s).take (e - s)) = 0
  · rw [normalizeSlice_of_sum_eq h]
  · obtain ⟨hs, _⟩ := slice_sum_ne_zero_facts h
    have hlt : (d.take s).length = s := by
      rw [List.length_take]
      omega
    have hlm : (((d.drop s).take (e - s)).map
        (fun v => v / lsum ((d.drop s).take (e - s)))).length
          = min (e - s) (d.length - s) := by
      rw [List.length_map, List.length_take, List.length_drop]
    rw [normalizeSlice_of_sum_ne h, List.append_assoc,
      List.drop_append_eq_append_drop,
      List.drop_eq_nil_of_le (by rw [hlt]; omega), List.nil_append, hlt,
      List.drop_append_eq_append_drop,
      List.drop_eq_nil_of_le (by rw [hlm]; exact Nat.min_le_left _ _),
      List.nil_append, hlm]
    rcases le_or_lt e d.length with he | he
    · rw [Nat.min_eq_left (by omega), Nat.sub_self, List.drop_zero]
    · rw [List.drop_eq_nil_of_le (le_of_lt he), List.drop_nil]

lemma normalizeSlice_slice (d : List α) {s e : ℕ} (hse : s ≤ e) :
    listSlice (normalizeSlice d s e) s e = normVal (listSlice d s e) := by
  by_cases h : lsum ((d.drop s).take (e - s)) = 0
  · rw [normalizeSlice_of_sum_eq h]
    unfold normVal listSlice
    rw [if_pos h]
  · obtain ⟨hs, hslt⟩ := slice_sum_ne_zero_facts h
    have hx : (d.take s).length = s := by
      rw [List.length_take]
      omega
    have hdx : (d.take s).drop s = [] := List.drop_eq_nil_of_le (le_of_eq hx)
    have hM : (((d.drop s).take (e - s)).map
        (fun v => v / lsum ((d.drop s).take (e - s)))).length
          = min (e - s) (d.length - s) := by
      rw [List.length_map, List.length_take, List.length_drop]
    unfold listSlice
    rw [normalizeSlice_of_sum_ne h, List.append_assoc,
      List.drop_append_eq_append_drop, hdx, hx, Nat.sub_self, List.drop_zero,
      List.nil_append, List.take_append_eq_append_take,
      List.take_of_length_le (by rw [hM]; exact Nat.min_le_left _ _), hM]
    unfold normVal
    rw [if_neg h]
    rcases le_or_lt e d.length with he | he
    · rw [Nat.min_eq_left (by omega), Nat.sub_self, List.take_zero, List.append_nil]
    · rw [List.drop_eq_nil_of_le (le_of_lt he), List.take_nil, List.append_nil]

/-- The head of a non-decreasing chain is below every member. -/
lemma chain'_head_le :
    ∀ (xs : List ℕ) (x : ℕ), List.Chain' (fun a b => a ≤ b) (x :: xs) →
      ∀ y ∈ x :: xs, x ≤ y := by
  intro xs
  induction xs with
  | nil =>
    intro x _ y hy
    rw [List.mem_singleton] at hy
    omega
  | cons z zs ih =>
    intro x hc y hy
    rcases List.mem_cons.mp hy with rfl | hy'
    · exact le_refl y
    · have hxz : x ≤ z := (List.chain'_cons.mp hc).1
      exact le_trans hxz (ih z (List.chain'_cons.mp hc).2 y hy')

/-- Both components of a consecutive pair of a list are members of it. -/
lemma zip_tail_mem :
    ∀ (l : List ℕ) (a b : ℕ), (a, b) ∈ l.zip l.tail → a ∈ l ∧ b ∈ l := by
  intro l
  induction l with
  | nil => simp
  | cons x xs ih =>
    intro a b hab
    cases xs with
    | nil => simp at hab
    | cons y ys =>
      rw [show (x :: y :: ys).zip (x :: y :: ys).tail
          = (x, y) :: (y :: ys).zip (y :: ys).tail from rfl] at hab
      rcases List.mem_cons.mp hab with heq | hmem
      · obtain ⟨rfl, rfl⟩ := Prod.mk.injEq .. ▸ And.intro (congrArg Prod.fst heq) (congrArg Prod.snd heq)
        exact ⟨List.mem_cons_self _ _, List.mem_cons_of_mem _ (List.mem_cons_self _ _)⟩
      · obtain ⟨h1, h2⟩ := ih a b hmem
        exact ⟨List.mem_cons_of_mem _ h1, List.mem_cons_of_mem _ h2⟩

/-- Main lemma about the `row_normalize` loop: on a non-decreasing boundary
chain it preserves length and the prefix before the first boundary, and
each row slice ends up `normVal` of the original slice — each row's
result is a function of that row's original content alone. -/
lemma rowNormAux_spec :
    ∀ (rest : List ℕ) (d : List α) (s : ℕ),
      List.Chain' (fun a b => a ≤ b) (s :: rest) →
      (rowNormAux d s rest).length = d.length ∧
      (rowNormAux d s rest).take s = d.take s ∧
      ∀ a b, (a, b) ∈ (s :: rest).zip rest →
        listSlice (rowNormAux d s rest) a b = normVal (listSlice d a b) := by
  intro rest
  induction rest with
  | nil =>
    intro d s _
    exact ⟨rfl, rfl, by simp [rowNormAux]⟩
  | cons e rest' ih =>
    intro d s hc
    have hse : s ≤ e := (List.chain'_cons.mp hc).1
    have hc' : List.Chain' (fun a b => a ≤ b) (e :: rest') := (List.chain'_cons.mp hc).2
    have hstep : rowNormAux d s (e :: rest') = rowNormAux (normalizeSlice d s e) e rest' := rfl
    obtain ⟨ihlen, ihtake, ihslice⟩ := ih (normalizeSlice d s e) e hc'
    refine ⟨?_, ?_, ?_⟩
    · rw [hstep, ihlen, normalizeSlice_length]
    · rw [hstep]
      have h1 : (rowNormAux (normalizeSlice d s e) e rest').take s
          = ((rowNormAux (normalizeSlice d s e) e rest').take e).take s := by
        rw [List.take_take, Nat.min_eq_left hse]
      rw [h1, ihtake, List.take_take, Nat.min_eq_left hse, normalizeSlice_take]
    · intro a b hab
      rw [show (s :: e :: rest').zip (e :: rest')
          = (s, e) :: (e :: rest').zip rest' from rfl] at hab
      rcases List.mem_cons.mp hab with heq | hmem
      · have ha : a = s := congrArg Prod.fst heq
        have hb : b = e := congrArg Prod.snd heq
        rw [ha, hb]
        have h2 : listSlice (rowNormAux d s (e :: rest')) s e
            = listSlice (normalizeSlice d s e) s e := by
          show (List.drop s (rowNormAux (normalizeSlice d s e) e rest')).take (e - s)
              = (List.drop s (normalizeSlice d s e)).take (e - s)
          rw [← List.drop_take e s, ← List.drop_take e s, ihtake]
        rw [h2, normalizeSlice_slice _ hse]
      · have haa : e ≤ a := by
          obtain ⟨hmema, _⟩ := zip_tail_mem (e :: rest') a b hmem
          exact chain'_head_le rest' e hc' a hmema
        rw [hstep, ihslice a b hmem]
        have h3 : listSlice (normalizeSlice d s e) a b = listSlice d a b := by
          rw [listSlice, listSlice]
          have h4 : (normalizeSlice d s e).drop a = d.drop a := by
            have h5 : ((normalizeSlice d s e).drop e).drop (a - e)
                = (d.drop e).drop (a - e) := by
              rw [normalizeSlice_drop _ hse]
            rw [List.drop_drop, List.drop_drop] at h5
            rw [show e + (a - e) = a by omega] at h5
            exact h5
          rw [h4]
        rw [h3]

/-- The content of `rowNormData` on a sorted `indptr`: length is preserved
and every row slice becomes `normVal` of the original slice. -/
lemma rowNormData_spec (d : List α) (indptr : List ℕ)
    (hc : List.Chain' (fun a b => a ≤ b) indptr) :
    (rowNormData d indptr).length = d.length ∧
    ∀ a b, (a, b) ∈ indptr.zip indptr.tail →
      listSlice (rowNormData d indptr) a b = normVal (listSlice d a b) := by
  cases indptr with
  | nil => exact ⟨rfl, by simp⟩
  | cons s rest =>
    obtain ⟨h1, _, h3⟩ := rowNormAux_spec rest d s hc
    exact ⟨h1, h3⟩

end RowNormalize

/-- Summing a slice divided elementwise by a constant. -/
lemma lsum_map_div (row : List ℚ) (c : ℚ) :
    lsum (row.map (fun v => v / c)) = lsum row / c := by
  induction row with
  | nil => simp [lsum]
  | cons a l ih =>
    rw [List.map_cons, lsum_cons, lsum_cons, ih, div_add_div_same]

/-- Slicing commutes with an elementwise map. -/
lemma listSlice_map {α β : Type} (f : α → β) (l : List α) (a b : ℕ) :
    listSlice (l.map f) a b = (listSlice l a b).map f := by
  rw [listSlice, listSlice, List.map_take, List.map_drop]

lemma floatm_add_def (a b : FloatM) : a + b = addF a b := rfl

lemma floatm_div_def (a b : FloatM) : a / b = divF a b := rfl

lemma floatm_zero_def : (0 : FloatM) = .fin 0 := rfl

lemma floatm_one_def : (1 : FloatM) = .fin 1 := rfl

/-- IEEE addition of non-NaN values never produces NaN. -/
lemma addF_ne_nan {a b : FloatM} (ha : a ≠ .nan) (hb : b ≠ .nan) :
    addF a b ≠ .nan := by
  cases a <;> cases b <;> simp_all [addF]

/-- A sum of non-NaN values is not NaN. -/
lemma lsum_ne_nan {l : List FloatM} (h : ∀ v ∈ l, v ≠ .nan) :
    lsum l ≠ .nan := by
  induction l with
  | nil => simp [lsum, floatm_zero_def]
  | cons v vs ih =>
    rw [lsum_cons, floatm_add_def]
    exact addF_ne_nan (h v (List.mem_cons_self v vs))
      (ih (fun w hw => h w (List.mem_cons_of_mem _ hw)))

lemma addF_inf_left {a : FloatM} (ha : a ≠ .nan) : addF .inf a = .inf := by
  cases a <;> simp_all [addF]

lemma addF_inf_right {a : FloatM} (ha : a ≠ .nan) : addF a .inf = .inf := by
  cases a <;> simp_all [addF]

/-- A sum of non-NaN values containing an infinity is infinite. -/
lemma lsum_eq_inf {l : List FloatM} (h : ∀ v ∈ l, v ≠ .nan)
    (hi : FloatM.inf ∈ l) : lsum l = .inf := by
  induction l with
  | nil => simp at hi
  | cons v vs ih =>
    rw [lsum_cons, floatm_add_def]
    rcases List.mem_cons.mp hi with heq | hmem
    · rw [← heq]
      exact addF_inf_left (lsum_ne_nan (fun w hw => h w (List.mem_cons_of_mem _ hw)))
    · rw [ih (fun w hw => h w (List.mem_cons_of_mem _ hw)) hmem]
      exact addF_inf_right (h v (List.mem_cons_self v vs))

/-- An element of a slice is an element of the whole array. -/
lemma mem_of_mem_listSlice {α : Type} {v : α} {l : List α} {a b : ℕ}
    (h : v ∈ listSlice l a b) : v ∈ l :=
  List.mem_of_mem_drop (List.mem_of_mem_take h)

/-- Every recorded greater-position is at least the starting counter. -/
lemma gif_ge (t : ℚ) :
    ∀ (l : List ℚ) (n : ℕ), ∀ p ∈ greaterIndicesFrom t n l, n ≤ p := by
  intro l
  induction l with
  | nil =>
    intro n p hp
    simp [greaterIndicesFrom] at hp
  | cons v vs ih =>
    intro n p hp
    simp only [greaterIndicesFrom] at hp
    by_cases h : t < v
    · rw [if_pos h] at hp
      rcases List.mem_cons.mp hp with rfl | hp'
      · exact le_refl p
      · have := ih (n + 1) p hp'
        omega
    · rw [if_neg h] at hp
      have := ih (n + 1) p hp
      omega

/-- Every recorded greater-position is below the end of the array. -/
lemma gif_lt_len (t : ℚ) :
    ∀ (l : List ℚ) (n : ℕ), ∀ p ∈ greaterIndicesFrom t n l, p < n + l.length := by
  intro l
  induction l with
  | nil =>
    intro n p hp
    simp [greaterIndicesFrom] at hp
  | cons v vs ih =>
    intro n p hp
    simp only [greaterIndicesFrom] at hp
    by_cases h : t < v
    · rw [if_pos h] at hp
      rcases List.mem_cons.mp hp with rfl | hp'
      · simp
      · have := ih (n + 1) p hp'
        simp only [List.length_cons]
        omega
    · rw [if_neg h] at hp
      have := ih (n + 1) p hp
      simp only [List.length_cons]
      omega

/-- There are as many greater-positions as strictly-greater entries. -/
lemma gif_length (t : ℚ) :
    ∀ (l : List ℚ) (n : ℕ),
      (greaterIndicesFrom t n l).length
        = (l.filter (fun v => decide (t < v))).length := by
  intro l
  induction l with
  | nil => intro n; rfl
  | cons v vs ih =>
    intro n
    simp only [greaterIndicesFrom, List.filter_cons]
    by_cases h : t < v
    · rw [if_pos h]
      simp [h, ih (n + 1)]
    · rw [if_neg h]
      simp [h, ih (n + 1)]

/-- Counting greater-positions below a bound `b` counts the
strictly-greater entries of the prefix of length `b - n`. -/
lemma gif_count_lt (t : ℚ) :
    ∀ (l : List ℚ) (n b : ℕ),
      ((greaterIndicesFrom t n l).filter (fun p => decide (p < b))).length
        = ((l.take (b - n)).filter (fun v => decide (t < v))).length := by
  intro l
  induction l with
  | nil => intro n b; simp [greaterIndicesFrom]
  | cons v vs ih =>
    intro n b
    simp only [greaterIndicesFrom]
    by_cases h : t < v
    · rw [if_pos h, List.filter_cons]
      by_cases hnb : n < b
      · have hbn : b - n = (b - (n + 1)) + 1 := by omega
        rw [hbn, List.take_succ_cons, List.filter_cons]
        simp [hnb, h, ih (n + 1) b]
      · have hbn : b - n = 0 := by omega
        have htail := ih (n + 1) b
        rw [show b - (n + 1) = 0 from by omega] at htail
        rw [hbn]
        simp only [List.take_zero, List.filter_nil, List.length_nil]
        simp only [List.take_zero, List.filter_nil, List.length_nil] at htail
        simp [hnb, htail]
    · rw [if_neg h]
      by_cases hnb : n < b
      · have hbn : b - n = (b - (n + 1)) + 1 := by omega
        rw [hbn, List.take_succ_cons, List.filter_cons]
        simp [h, ih (n + 1) b]
      · have hbn : b - n = 0 := by omega
        have htail := ih (n + 1) b
        rw [show b - (n + 1) = 0 from by omega] at htail
        rw [hbn]
        simp only [List.take_zero, List.filter_nil, List.length_nil]
        simp only [List.take_zero, List.filter_nil, List.length_nil] at htail
        exact htail

/-- A cumulative histogram bin count with open right edge and first edge 0. -/
lemma cumCount_open (gi : List ℕ) (e : ℕ) :
    cumCount gi 0 e false = (gi.filter (fun p => decide (p < e))).length := by
  unfold cumCount
  congr 1
  apply List.filter_congr
  intro p _
  simp

/-- The right-closed final bin with first edge 0 catches every position at
or below its edge. -/
lemma cumCount_closed_all (gi : List ℕ) (e : ℕ) (h : ∀ p ∈ gi, p ≤ e) :
    cumCount gi 0 e true = gi.length := by
  unfold cumCount
  rw [List.filter_eq_self.mpr ?_]
  intro p hp
  simp [h p hp]

/-- On boundaries that stay within the data array and end exactly at its
length, the histogram update of `remove_greater_than` rewrites every
boundary `b` to the number of kept entries before `b`. -/
lemma newIndptrGo_eq (data : List ℚ) (t : ℚ) :
    ∀ (rest : List ℕ), (∀ e ∈ rest, e ≤ data.length) →
      rest.getLastD data.length = data.length →
      newIndptrGo (greaterIndices data t) 0 rest
        = rest.map (fun b => countLe data t b) := by
  intro rest
  induction rest with
  | nil => intro _ _; rfl
  | cons e rest' ih =>
    intro hmem hlast
    cases rest' with
    | nil =>
      have he : e = data.length := by simpa using hlast
      simp only [newIndptrGo, List.map]
      congr 1
      have hall : ∀ p ∈ greaterIndices data t, p ≤ e := by
        intro p hp
        have := gif_lt_len t data 0 p hp
        omega
      rw [cumCount_closed_all _ _ hall, greaterIndices, gif_length, he,
        countLe, List.take_length]
      have := length_filter_split data t
      omega
    | cons e'' rest'' =>
      have he : e ≤ data.length := hmem e (List.mem_cons_self _ _)
      simp only [newIndptrGo, List.map]
      have h1 : e - cumCount (greaterIndices data t) 0 e false = countLe data t e := by
        rw [cumCount_open, greaterIndices, gif_count_lt t data 0 e,
          Nat.sub_zero, countLe]
        have hsplit := length_filter_split (data.take e) t
        have hlen : (data.take e).length = e := by
          rw [List.length_take]
          omega
        omega
      have hlast' : (e'' :: rest'').getLastD data.length = data.length := by
        rw [List.getLastD_cons, List.getLastD_cons] at hlast
        rw [List.getLastD_cons]
        exact hlast
      rw [h1, ih (fun x hx => hmem x (List.mem_cons_of_mem _ hx)) hlast',
        List.map_cons]

/-- Computes `getLastD` of a mapped list. -/
lemma getLastD_map (f : ℕ → ℕ) :
    ∀ (l : List ℕ) (x : ℕ), (l.map f).getLastD (f x) = f (l.getLastD x) := by
  intro l
  induction l with
  | nil => intro x; rfl
  | cons a l' ih =>
    intro x
    rw [List.map_cons, List.getLastD_cons, List.getLastD_cons, ih a]

/-- In a non-decreasing chain every member is at most the last element. -/
lemma chain'_mem_le_getLastD :
    ∀ (l : List ℕ), List.Chain' (fun a b => a ≤ b) l →
      ∀ x ∈ l, x ≤ l.getLastD 0 := by
  intro l
  induction l with
  | nil => simp
  | cons a l' ih =>
    intro hc x hx
    cases l' with
    | nil =>
      rw [List.mem_singleton] at hx
      subst hx
      exact le_refl _
    | cons b l'' =>
      rw [List.getLastD_cons]
      have hrw : (b :: l'').getLastD a = (b :: l'').getLastD 0 := by
        rw [List.getLastD_cons, List.getLastD_cons]
      rw [hrw]
      rcases List.mem_cons.mp hx with rfl | hx'
      · have hab : x ≤ b := (List.chain'_cons.mp hc).1
        have hb := ih (List.chain'_cons.mp hc).2 b (List.mem_cons_self _ _)
        omega
      · exact ih (List.chain'_cons.mp hc).2 x hx'

/-- Consecutive boundaries of a non-decreasing chain are ordered. -/
lemma chain'_zip_le :
    ∀ (l : List ℕ), List.Chain' (fun a b => a ≤ b) l →
      ∀ a b, (a, b) ∈ l.zip l.tail → a ≤ b := by
  intro l
  induction l with
  | nil => simp
  | cons x xs ih =>
    intro hc a b hab
    cases xs with
    | nil => simp at hab
    | cons y ys =>
      rw [show (x :: y :: ys).zip (x :: y :: ys).tail
          = (x, y) :: (y :: ys).zip (y :: ys).tail from rfl] at hab
      rcases List.mem_cons.mp hab with heq | hmem
      · have t1 : a = x := congrArg Prod.fst heq
        have t2 : b = y := congrArg Prod.snd heq
        rw [t1, t2]
        exact (List.chain'_cons.mp hc).1
      · exact ih (List.chain'_cons.mp hc).2 a b hmem

/-- The kept-entry count is monotone in the boundary. -/
lemma countLe_mono (data : List ℚ) (t : ℚ) {a b : ℕ} (hab : a ≤ b) :
    countLe data t a ≤ countLe data t b := by
  unfold countLe
  conv_rhs => rw [show b = a + (b - a) from by omega]
  rw [List.take_add, List.filter_append, List.length_append]
  exact Nat.le_add_right _ _

/-- Deleting positions from `indices` parallel to the data filter yields as
many entries as the filtered data. -/
lemma zip_filter_length (t : ℚ) :
    ∀ (d : List ℚ) (idx : List ℕ), d.length = idx.length →
      (((d.zip idx).filter (fun p => !decide (t < p.1))).map Prod.snd).length
        = (d.filter (fun v => !decide (t < v))).length := by
  intro d
  induction d with
  | nil => intro idx _; simp
  | cons v vs ih =>
    intro idx h
    cases idx with
    | nil => simp at h
    | cons i is =>
      have h' : vs.length = is.length := by
        simpa using h
      rw [List.zip_cons_cons, List.filter_cons, List.filter_cons]
      by_cases hv : t < v
      · simp [hv, ih is h']
      · simp [hv, ih is h']

/-- The filtered data between the rewritten boundaries is the filter of the
original row slice. -/
lemma newData_slice (data : List ℚ) (t : ℚ) {a b : ℕ}
    (hab : a ≤ b) (hbL : b ≤ data.length) :
    listSlice (data.filter (fun v => !decide (t < v)))
        (countLe data t a) (countLe data t b)
      = (listSlice data a b).filter (fun v => !decide (t < v)) := by
  have hsplit : data.take b = data.take a ++ (data.drop a).take (b - a) := by
    have h0 := List.take_add data a (b - a)
    rw [show a + (b - a) = b from by omega] at h0
    exact h0
  have hfil : data.filter (fun v => !decide (t < v))
      = (data.take a).filter (fun v => !decide (t < v))
        ++ (((data.drop a).take (b - a)).filter (fun v => !decide (t < v))
            ++ (data.drop b).filter (fun v => !decide (t < v))) := by
    conv_lhs => rw [← List.take_append_drop b data, hsplit]
    rw [List.filter_append, List.filter_append, List.append_assoc]
  have hcb : countLe data t b
      = countLe data t a
        + (((data.drop a).take (b - a)).filter (fun v => !decide (t < v))).length := by
    unfold countLe
    rw [hsplit, List.filter_append, List.length_append]
  have hca : countLe data t a
      = ((data.take a).filter (fun v => !decide (t < v))).length := rfl
  unfold listSlice
  rw [hfil, hca, List.drop_left,
    show countLe data t b - ((data.take a).filter (fun v => !decide (t < v))).length
      = (((data.drop a).take (b - a)).filter (fun v => !decide (t < v))).length from by
        rw [hcb, hca]; omega,
    List.take_left]

/- ================================================================
Claim theorems
================================================================ -/

/-- Claim C1: CSR Filter removes exactly the strictly-greater entries: no
retained entry exceeds the threshold, entries equal to the threshold are
all kept (multiplicity included), and the retained count plus the count of
original entries above the threshold is the original length; on
`data=[1,5,3,9]`, `indptr=[0,2,4]`, threshold 4, the result has
`data=[1,3]` and `indptr=[0,1,2]`. -/
theorem claim_C1 :
    (∀ (g : Csr ℚ) (t : ℚ),
      (∀ v ∈ (remove_greater_than g t).data, ¬ t < v) ∧
      (remove_greater_than g t).data.count t = g.data.count t ∧
      (remove_greater_than g t).data.length
        + (g.data.filter (fun v => decide (t < v))).length = g.data.length) ∧
    (remove_greater_than ⟨[1, 5, 3, 9], [0, 1, 0, 1], [0, 2, 4]⟩ 4).data = [1, 3] ∧
    (remove_greater_than ⟨[1, 5, 3, 9], [0, 1, 0, 1], [0, 2, 4]⟩ 4).indptr = [0, 1, 2] := by
  refine ⟨fun g t => ⟨?_, ?_, ?_⟩, by decide, by decide⟩
  · intro v hv
    simp only [remove_greater_than, List.mem_filter, Bool.not_eq_eq_eq_not,
      Bool.not_true, decide_eq_false_iff_not] at hv
    exact hv.2
  · exact List.count_filter (by simp)
  · exact length_filter_split g.data t

/-- Witness for C1 at the concrete scenario: instantiates the universal part
at the §8 CSR graph and threshold 4, discharging the membership hypothesis
at the retained entry 1. -/
theorem claim_C1_witness : ¬ (4 : ℚ) < 1 :=
  (claim_C1.1 ⟨[1, 5, 3, 9], [0, 1, 0, 1], [0, 2, 4]⟩ 4).1 1 (by decide)

/-- Claim C2: on a graph satisfying the CSR invariant, `remove_greater_than`
— with `indptr` recomputed by binning removed positions into the original
row buckets and subtracting the running total — preserves the invariant:
the new `indptr` is non-decreasing, starts at 0, ends at the new data
length, `data` and `indices` stay parallel, and every boundary `b` becomes
the number of kept entries before `b`, so each new row slice is exactly
the filtered original row slice. -/
theorem claim_C2 :
    ∀ (g : Csr ℚ) (t : ℚ), CsrInv g →
      CsrInv (remove_greater_than g t) ∧
      (remove_greater_than g t).indptr = g.indptr.map (fun b => countLe g.data t b) ∧
      ∀ a b, (a, b) ∈ g.indptr.zip g.indptr.tail →
        listSlice (remove_greater_than g t).data
            (countLe g.data t a) (countLe g.data t b)
          = (listSlice g.data a b).filter (fun v => !decide (t < v)) := by
  intro g t hinv
  obtain ⟨hc, hh, hl, hlen, hne⟩ := hinv
  obtain ⟨h0, rest, hip⟩ := List.exists_cons_of_ne_nil hne
  have hh0 : h0 = 0 := by
    rw [hip] at hh
    simpa using hh
  have hmemle : ∀ x ∈ g.indptr, x ≤ g.data.length := by
    intro x hx
    have := chain'_mem_le_getLastD g.indptr hc x hx
    omega
  have hmap : (remove_greater_than g t).indptr
      = g.indptr.map (fun b => countLe g.data t b) := by
    show newIndptr (greaterIndices g.data t) g.indptr = _
    rw [hip, newIndptr, List.map_cons]
    have hrest : ∀ e ∈ rest, e ≤ g.data.length := by
      intro e hee
      exact hmemle e (by rw [hip]; exact List.mem_cons_of_mem _ hee)
    have hrlast : rest.getLastD g.data.length = g.data.length := by
      cases rest with
      | nil => rfl
      | cons x xs =>
        rw [hip, List.getLastD_cons] at hl
        rw [show (x :: xs).getLastD g.data.length = (x :: xs).getLastD h0 from by
          rw [List.getLastD_cons, List.getLastD_cons]]
        exact hl
    rw [hh0, newIndptrGo_eq g.data t rest hrest hrlast,
      show countLe g.data t 0 = 0 from rfl]
  refine ⟨⟨?_, ?_, ?_, ?_, ?_⟩, hmap, ?_⟩
  · rw [hmap, List.chain'_map]
    exact hc.imp (fun a b hab => countLe_mono g.data t hab)
  · rw [hmap, hip, List.map_cons, hh0]
    rfl
  · rw [hmap, hip, List.map_cons]
    have h2 : ((countLe g.data t h0) :: rest.map (fun b => countLe g.data t b)).getLastD 0
        = countLe g.data t ((h0 :: rest).getLastD 0) := by
      rw [List.getLastD_cons,
        show rest.map (fun b => countLe g.data t b) = rest.map (fun b => countLe g.data t b) from rfl,
        getLastD_map (fun b => countLe g.data t b) rest h0, List.getLastD_cons]
    rw [h2, ← hip, hl]
    show countLe g.data t g.data.length
        = (g.data.filter (fun v => !decide (t < v))).length
    rw [countLe, List.take_length]
  · exact zip_filter_length t g.data g.indices hlen.symm
  · rw [hmap, hip]
    simp
  · intro a b hab
    have hab' : a ≤ b := chain'_zip_le g.indptr hc a b hab
    have hbL : b ≤ g.data.length := hmemle b (zip_tail_mem g.indptr a b hab).2
    exact newData_slice g.data t hab' hbL

/-- Witness for C2 at the §8 graph and threshold 4: the first row slice of
the filtered graph is the filter of the original first row slice. -/
theorem claim_C2_witness :
    listSlice (remove_greater_than ⟨[1, 5, 3, 9], [0, 1, 0, 1], [0, 2, 4]⟩ 4).data
        (countLe [1, 5, 3, 9] 4 0) (countLe [1, 5, 3, 9] 4 2)
      = (listSlice [1, 5, 3, 9] 0 2).filter (fun v => !decide ((4 : ℚ) < v)) :=
  (claim_C2 ⟨[1, 5, 3, 9], [0, 1, 0, 1], [0, 2, 4]⟩ 4
    ⟨by norm_num [List.chain'_cons], rfl, rfl, rfl, by simp⟩).2.2 0 2 (by decide)

/-- Claim C5 (code evaluated at the failing input): `zscore` on the dense
2×3 constant matrix with `axis=1` raises a broadcasting `ValueError`
(`E_x = matrix.mean(axis=1)` has shape `(2,)`, and `matrix - E_x` cannot
broadcast `(2,3)` against `(2,)`), whatever sqrt does — the claim promised
an all-zero output for every axis.  On the working `axis=0` path the same
constant matrix does produce exactly zeros. -/
theorem claim_C5_axis1_broadcast_bug :
    (∀ s : ℚ → ℚ, zscore s [[7, 7, 7], [7, 7, 7]] 1 = none) ∧
    zscore (fun q => q) [[7, 7, 7], [7, 7, 7]] 0 = some [[0, 0, 0], [0, 0, 0]] :=
  ⟨fun _ => rfl, by norm_num [zscore, zscoreCols, mapWithIndex, nanToNum, safeDiv, colVar, colMean, colAt, meanQ, lsum]⟩

/-- Claim C6: Feature Fusion on matrices with `N` matching rows yields `N`
rows of width `G1 + G2`; with `sqrt 1 = 1` and `sqrt 0 = 0`, at `λ = 0`
the first block is the untouched self matrix and the second block is all
zeros, and at `λ = 1` the roles are swapped. -/
theorem claim_C6 :
    ∀ (s : ℚ → ℚ) (A B : List (List ℚ)) (lam : ℚ) (g1 g2 : ℕ),
      A.length = B.length → rectangular A g1 → rectangular B g2 →
      s 0 = 0 → s 1 = 1 →
      (weighted_concatenate s A B lam).length = A.length ∧
      (∀ row ∈ weighted_concatenate s A B lam, row.length = g1 + g2) ∧
      (lam = 0 → weighted_concatenate s A B lam
        = A.zipWith (fun ra rb => ra ++ rb.map (fun _ => (0 : ℚ))) B) ∧
      (lam = 1 → weighted_concatenate s A B lam
        = A.zipWith (fun ra rb => ra.map (fun _ => (0 : ℚ)) ++ rb) B) := by
  intro s A B lam g1 g2 hAB hA hB hs0 hs1
  have hscale : ∀ (c : ℚ) (m : List (List ℚ)) (g : ℕ), rectangular m g →
      ∀ r ∈ scaleMatrix c m, r.length = g := by
    intro c m g hm r hr
    rcases List.mem_map.mp hr with ⟨r0, hr0, rfl⟩
    simp [hm r0 hr0]
  constructor
  · simp [weighted_concatenate, List.length_zipWith, scaleMatrix, hAB]
  refine ⟨?_, ?_, ?_⟩
  · exact zipWith_append_length _ _ (hscale _ _ _ hA) (hscale _ _ _ hB)
  · rintro rfl
    show (scaleMatrix (s (1 - 0)) A).zipWith _ (scaleMatrix (s 0) B) = _
    rw [show (1 : ℚ) - 0 = 1 by norm_num, hs0, hs1]
    simp [scaleMatrix, List.zipWith_map_right, List.zipWith_map_left]
  · rintro rfl
    show (scaleMatrix (s (1 - 1)) A).zipWith _ (scaleMatrix (s 1) B) = _
    rw [show (1 : ℚ) - 1 = 0 by norm_num, hs0, hs1]
    simp [scaleMatrix, List.zipWith_map_right, List.zipWith_map_left]

/-- Witness for C6: at `A = [[1,2]]`, `B = [[3]]`, `λ = 0` and the identity
standing in for sqrt (it has the two needed values), the fused matrix is
the self block followed by a zero block. -/
theorem claim_C6_witness :
    weighted_concatenate (fun q => q) [[1, 2]] [[3]] 0
      = List.zipWith (fun ra rb => ra ++ rb.map (fun _ => (0 : ℚ))) [[1, 2]] [[3]] :=
  (claim_C6 (fun q => q) [[1, 2]] [[3]] 0 2 1 rfl (by decide) (by decide) rfl rfl).2.2.1 rfl

/-- Counterexample to C7 as stated: with no precomputed index,
`num_neighbours = 2` (a valid int) and a non-numeric `radius`, the call
does fail — but only after fitting the spatial index and computing the
whole k-NN graph, so validation neither happens "before doing any work"
nor "fails fast with no partial execution". -/
theorem claim_C7_counterexample :
    (generate_spatial_distance_graph false (some (.int 2)) (some (.str "oops"))).2.isOk
        = false ∧
    GsdgStep.kneighborsGraph
        ∈ (generate_spatial_distance_graph false (some (.int 2)) (some (.str "oops"))).1 ∧
    GsdgStep.fitIndex
        ∈ (generate_spatial_distance_graph false (some (.int 2)) (some (.str "oops"))).1 := by
  refine ⟨rfl, ?_, ?_⟩ <;> decide

/-- Claim C7 as amended: both type violations do raise an error (a
non-`int` `num_neighbours` always aborts the k-NN branch; a non-numeric
`radius` aborts when `num_neighbours` is also set), but validation is
interleaved with work rather than fail-fast — in the radius case the k-NN
graph has already been computed when the assertion fires (and, when no
neighbor object is passed, the spatial index is fitted before any check). -/
theorem claim_C7_amended :
    ∀ (nbr : Bool) (nn : PyVal) (radius : Option PyVal),
      (isInstanceInt nn = false →
        (generate_spatial_distance_graph nbr (some nn) radius).2
          = .error ("AssertionError: number of neighbours is not an integer")) ∧
      (∀ r, isInstanceInt nn = true → radius = some r → isInstanceFloatInt r = false →
        (generate_spatial_distance_graph nbr (some nn) radius).2
          = .error ("AssertionError: radius is not an integer or float") ∧
        GsdgStep.kneighborsGraph
          ∈ (generate_spatial_distance_graph nbr (some nn) radius).1) := by
  intro nbr nn radius
  constructor
  · intro hnn
    simp [generate_spatial_distance_graph, hnn]
  · rintro r hnn rfl hr
    simp [generate_spatial_distance_graph, hnn, hr]

/-- Witness for the amended C7: a float `num_neighbours` raises, and a
string `radius` raises after the k-NN graph computation appears in the
trace. -/
theorem claim_C7_amended_witness :
    (generate_spatial_distance_graph true (some (.float (1 / 2))) none).2
        = .error ("AssertionError: number of neighbours is not an integer") ∧
    ((generate_spatial_distance_graph false (some (.int 3)) (some (.str "x"))).2
        = .error ("AssertionError: radius is not an integer or float") ∧
      GsdgStep.kneighborsGraph
        ∈ (generate_spatial_distance_graph false (some (.int 3)) (some (.str "x"))).1) :=
  ⟨(claim_C7_amended true (.float (1 / 2)) none).1 rfl,
   (claim_C7_amended false (.int 3) (some (.str "x"))).2 (.str "x") rfl rfl rfl⟩

/-- Counterexample to C8 as stated: at `λ = 2`, well outside `[0, 1]`, the
call does not fail at all — it returns a normal result (`np.sqrt` of the
negative scale argument would merely warn and produce NaN entries); the
error outcome does not depend on the sqrt model, which is instantiated
with the identity here. -/
theorem claim_C8_counterexample :
    (weighted_concatenate_run (fun q => q) [[1]] [[1]] 2).2.isOk = true := rfl

/-- Claim C8 as amended: `weighted_concatenate` validates nothing.  With
matching row counts every `λ` (in range or not) produces a result, and
with mismatched row counts the `ValueError` comes from `np.concatenate`
only after both caller-owned matrices have already been scaled in place. -/
theorem claim_C8_amended :
    ∀ (s : ℚ → ℚ) (A B : List (List ℚ)) (lam : ℚ),
      (A.length = B.length →
        ∃ C, (weighted_concatenate_run s A B lam).2 = .ok C) ∧
      (A.length ≠ B.length →
        (weighted_concatenate_run s A B lam).2
            = .error ("ValueError: row counts differ") ∧
        (weighted_concatenate_run s A B lam).1
            = (scaleMatrix (s (1 - lam)) A, scaleMatrix (s lam) B)) := by
  intro s A B lam
  have hlen : (scaleMatrix (s (1 - lam)) A).length = A.length := List.length_map _ _
  have hlen' : (scaleMatrix (s lam) B).length = B.length := List.length_map _ _
  constructor
  · intro h
    refine ⟨(scaleMatrix (s (1 - lam)) A).zipWith (fun a b => a ++ b)
      (scaleMatrix (s lam) B), ?_⟩
    simp [weighted_concatenate_run, hlen, hlen', h]
  · intro h
    have : ¬ (scaleMatrix (s (1 - lam)) A).length = (scaleMatrix (s lam) B).length := by
      rw [hlen, hlen']; exact h
    simp [weighted_concatenate_run, this]

/-- Witness for the amended C8: out-of-range `λ = 5` with matching rows
yields a normal result, while a 1-row/2-row mismatch errors with both
buffers already scaled. -/
theorem claim_C8_amended_witness :
    (∃ C, (weighted_concatenate_run (fun q => q) [[1]] [[2]] 5).2 = .ok C) ∧
    ((weighted_concatenate_run (fun q => q) [[1]] [[1], [2]] 0).2
        = .error ("ValueError: row counts differ") ∧
      (weighted_concatenate_run (fun q => q) [[1]] [[1], [2]] 0).1
        = (scaleMatrix ((1 : ℚ) - 0) [[1]], scaleMatrix (0 : ℚ) [[1], [2]])) :=
  ⟨(claim_C8_amended (fun q => q) [[1]] [[2]] 5).1 rfl,
   (claim_C8_amended (fun q => q) [[1]] [[1], [2]] 0).2 (by decide)⟩

/-- Claim C10: `zscore` never writes its argument.  In the store model,
running either the sparse branch (which allocates `squared =
matrix.copy()`, squares only that copy in place, and allocates the
result) or the dense branch (which only reads and allocates) leaves the
caller's buffer exactly as it was. -/
theorem claim_C10 :
    ∀ (s : ℚ → ℚ) (st : Store) (mIdx : ℕ) (indices indptr : List ℕ) (N G : ℕ),
      mIdx < st.bufs.length →
      readBuf (zscoreSparseProg s st mIdx indices indptr N G).1 mIdx
          = readBuf st mIdx ∧
      readBuf (zscoreDenseProg s st mIdx N G).1 mIdx = readBuf st mIdx := by
  intro s st mIdx indices indptr N G hm
  constructor
  · show ((((st.bufs ++ [readBuf st mIdx]).set st.bufs.length _) ++ [_]).getD mIdx [])
        = st.bufs.getD mIdx []
    rw [List.getD_append _ _ _ _ (by simp [List.length_set]; omega),
      List.getD_eq_getElem?_getD, List.getElem?_set_ne (by omega),
      ← List.getD_eq_getElem?_getD, List.getD_append _ _ _ _ (by omega)]
  · show ((st.bufs ++ [_]).getD mIdx []) = st.bufs.getD mIdx []
    exact List.getD_append _ _ _ _ hm

/-- Witness for C10 at a concrete one-buffer store: the sparse and dense
programs both leave buffer 0 holding its original data. -/
theorem claim_C10_witness :
    readBuf (zscoreSparseProg (fun q => q) ⟨[[1, 2]]⟩ 0 [0, 1] [0, 2] 1 2).1 0
        = readBuf ⟨[[1, 2]]⟩ 0 ∧
    readBuf (zscoreDenseProg (fun q => q) ⟨[[1, 2]]⟩ 0 1 2).1 0
        = readBuf ⟨[[1, 2]]⟩ 0 :=
  claim_C10 (fun q => q) ⟨[[1, 2]]⟩ 0 [0, 1] [0, 2] 1 2 (by decide)

/-- Claim C3: Row Normalizer leaves `indices` and `indptr` alone, preserves
the data length, and sends every row slice to `normVal` of the original
slice — a function of that row alone, so the result is independent of the
order rows are processed in; a row with nonzero sum becomes the row
divided by that sum (and then sums to exactly 1), and a row with zero sum
is returned unchanged. -/
theorem claim_C3 :
    ∀ (g : Csr ℚ), g.indptr.Chain' (fun a b => a ≤ b) →
      (row_normalize g).indices = g.indices ∧
      (row_normalize g).indptr = g.indptr ∧
      (row_normalize g).data.length = g.data.length ∧
      ∀ a b, (a, b) ∈ g.indptr.zip g.indptr.tail →
        listSlice (row_normalize g).data a b = normVal (listSlice g.data a b) ∧
        (lsum (listSlice g.data a b) ≠ 0 →
          listSlice (row_normalize g).data a b
              = (listSlice g.data a b).map (fun v => v / lsum (listSlice g.data a b)) ∧
          lsum (listSlice (row_normalize g).data a b) = 1) ∧
        (lsum (listSlice g.data a b) = 0 →
          listSlice (row_normalize g).data a b = listSlice g.data a b) := by
  intro g hc
  obtain ⟨hlen, hslice⟩ := rowNormData_spec g.data g.indptr hc
  refine ⟨rfl, rfl, hlen, ?_⟩
  intro a b hab
  have h1 : listSlice (row_normalize g).data a b = normVal (listSlice g.data a b) :=
    hslice a b hab
  refine ⟨h1, ?_, ?_⟩
  · intro hne
    have h2 : listSlice (row_normalize g).data a b
        = (listSlice g.data a b).map (fun v => v / lsum (listSlice g.data a b)) := by
      rw [h1, normVal, if_neg hne]
    refine ⟨h2, ?_⟩
    rw [h2, lsum_map_div, div_self hne]
  · intro hz
    rw [h1, normVal, if_pos hz]

/-- Witness for C3 at the graph `data=[1,3,0,0,2]`, `indptr=[0,2,4,5]`: the
first row has nonzero sum 4 and its normalized slice sums to exactly 1. -/
theorem claim_C3_witness :
    lsum (listSlice (row_normalize (⟨[1, 3, 0, 0, 2], [0, 1, 0, 1, 0], [0, 2, 4, 5]⟩ : Csr ℚ)).data 0 2) = 1 :=
  (((claim_C3 ⟨[1, 3, 0, 0, 2], [0, 1, 0, 1, 0], [0, 2, 4, 5]⟩
        (by norm_num [List.chain'_cons])).2.2.2
      0 2 (by decide)).2.1 (by norm_num [listSlice, lsum])).2

/-- Claim C4: Weight Transform returns the pair
`(row_normalize(reciprocal of the distance graph), distance graph)`: the
second component is the input distance graph, untouched (the reciprocal is
taken on a copy); the first shares the sparsity structure of the distance
graph and each of its row slices is the row-normalized elementwise
reciprocal of the corresponding distance slice.  On the §8 scenario graph
(4 collinear points, 2 neighbours) the weight data is
`[2/3, 1/3, 1/2, 1/2, 1/2, 1/2, 2/3, 1/3]` — row 0 is `[2/3, 1/3]`. -/
theorem claim_C4 :
    (∀ (dist : Csr ℚ), dist.indptr.Chain' (fun a b => a ≤ b) →
      (generate_spatial_weights_fixed_nbrs dist).2 = dist ∧
      (generate_spatial_weights_fixed_nbrs dist).1.indices = dist.indices ∧
      (generate_spatial_weights_fixed_nbrs dist).1.indptr = dist.indptr ∧
      ∀ a b, (a, b) ∈ dist.indptr.zip dist.indptr.tail →
        listSlice (generate_spatial_weights_fixed_nbrs dist).1.data a b
          = normVal ((listSlice dist.data a b).map (fun v => 1 / v))) ∧
    ((generate_spatial_weights_fixed_nbrs scenarioDistanceGraph).1.data
        = [2 / 3, 1 / 3, 1 / 2, 1 / 2, 1 / 2, 1 / 2, 2 / 3, 1 / 3] ∧
     (generate_spatial_weights_fixed_nbrs scenarioDistanceGraph).2
        = scenarioDistanceGraph) := by
  refine ⟨?_,
    by norm_num [generate_spatial_weights_fixed_nbrs, row_normalize, rowNormData,
      rowNormAux, normalizeSlice, lsum, scenarioDistanceGraph], rfl⟩
  intro dist hc
  obtain ⟨_, hslice⟩ :=
    rowNormData_spec (dist.data.map (fun v => (1 : ℚ) / v)) dist.indptr hc
  refine ⟨rfl, rfl, rfl, ?_⟩
  intro a b hab
  have h1 := hslice a b hab
  rw [listSlice_map] at h1
  exact h1

/-- Witness for C4: instantiating the universal part at the scenario graph
gives row 0 of the weight graph as the normalized reciprocals `[2/3, 1/3]`. -/
theorem claim_C4_witness :
    listSlice (generate_spatial_weights_fixed_nbrs scenarioDistanceGraph).1.data 0 2
      = normVal ((listSlice scenarioDistanceGraph.data 0 2).map (fun v => (1 : ℚ) / v)) :=
  ((claim_C4.1 scenarioDistanceGraph
    (by norm_num [scenarioDistanceGraph, List.chain'_cons])).2.2.2) 0 2
    (by decide)

/-- Counterexample to C9 as stated: on the distance graph with `data=[0,1]`
(one row, a zero-distance edge), the weight graph returned by
`generate_spatial_weights_fixed_nbrs` contains NaN — the reciprocal turns
the zero distance into Inf, the row sum becomes Inf, and `inf/inf` is NaN. -/
theorem claim_C9_counterexample :
    FloatM.nan ∈ (generate_spatial_weights_fixed_nbrs
      (⟨[.fin 0, .fin 1], [1, 0], [0, 2]⟩ : Csr FloatM)).1.data := by decide

/-- Claim C9 as amended: for every distance graph of finite values whose
row slices (under a sorted `indptr`) contain a zero distance, the
normalized weight graph DOES contain NaN: the zero-distance entry becomes
Inf under the reciprocal, the row sum is then Inf, and dividing the row by
it maps that entry to `inf/inf = NaN`.  Inf/NaN are silently propagated,
not resolved. -/
theorem claim_C9_amended :
    ∀ (g : Csr FloatM), g.indptr.Chain' (fun a b => a ≤ b) →
      (∀ v ∈ g.data, ∃ q : ℚ, v = .fin q) →
      ∀ a b, (a, b) ∈ g.indptr.zip g.indptr.tail →
      FloatM.fin 0 ∈ listSlice g.data a b →
      FloatM.nan ∈ (generate_spatial_weights_fixed_nbrs g).1.data := by
  intro g hc hfin a b hab hz
  obtain ⟨_, hslice⟩ :=
    rowNormData_spec (g.data.map (fun v => (1 : FloatM) / v)) g.indptr hc
  have h1 : listSlice (generate_spatial_weights_fixed_nbrs g).1.data a b
      = normVal ((listSlice g.data a b).map (fun v => (1 : FloatM) / v)) := by
    have h0 := hslice a b hab
    rw [listSlice_map] at h0
    exact h0
  have hrowfin : ∀ v ∈ listSlice g.data a b, ∃ q : ℚ, v = .fin q :=
    fun v hv => hfin v (mem_of_mem_listSlice hv)
  have hnn : ∀ w ∈ (listSlice g.data a b).map (fun v => (1 : FloatM) / v), w ≠ .nan := by
    intro w hw
    rcases List.mem_map.mp hw with ⟨v, hv, rfl⟩
    rcases hrowfin v hv with ⟨q, rfl⟩
    rw [floatm_div_def, floatm_one_def]
    by_cases hq : q = 0 <;> simp [divF, hq]
  have hinf : FloatM.inf ∈ (listSlice g.data a b).map (fun v => (1 : FloatM) / v) :=
    List.mem_map.mpr ⟨.fin 0, hz, by decide⟩
  have hsum : lsum ((listSlice g.data a b).map (fun v => (1 : FloatM) / v)) = .inf :=
    lsum_eq_inf hnn hinf
  have hne : lsum ((listSlice g.data a b).map (fun v => (1 : FloatM) / v)) ≠ 0 := by
    rw [hsum]
    decide
  have h2 : FloatM.nan ∈ listSlice (generate_spatial_weights_fixed_nbrs g).1.data a b := by
    rw [h1, normVal, if_neg hne]
    refine List.mem_map.mpr ⟨.inf, hinf, ?_⟩
    rw [hsum]
    decide
  exact mem_of_mem_listSlice h2

/-- Witness for the amended C9 at the one-row graph `data=[1, 0]`: its
weight graph contains NaN. -/
theorem claim_C9_amended_witness :
    FloatM.nan ∈ (generate_spatial_weights_fixed_nbrs
      (⟨[.fin 1, .fin 0], [0, 1], [0, 2]⟩ : Csr FloatM)).1.data :=
  claim_C9_amended ⟨[.fin 1, .fin 0], [0, 1], [0, 2]⟩ (by norm_num [List.chain'_cons])
    (by
      intro v hv
      rcases List.mem_cons.mp hv with rfl | hv'
      · exact ⟨1, rfl⟩
      · rcases List.mem_cons.mp hv' with rfl | hv''
        · exact ⟨0, rfl⟩
        · simp at hv'')
    0 2 (by decide) (by decide)

end MNMST
